import Mathlib

/-!
Verification of `stips/utilities/makePSF.py` (STScI-STIPS).

The four functions of the module are embedded shallowly over exact rationals:

* `make_epsf`  : 5x5 convolution, edge overrides, IPC redistribution;
* `real_psf`   : two-regime (bilinear / bicubic) sub-pixel sampler;
* `place_source` : additive compositor of one source into an image buffer;
* `interpolate_epsf` : bilinear blend of a 3x3 grid of ePSF tiles.

Modelling conventions:

* 2D numpy arrays become total functions `ℤ → ℤ → ℚ` together with an explicit
  `size` parameter where the code reads `shape[0]`.  In-bounds access is the
  caller contract of the source module (spec section 4.2); an access outside
  the declared extent simply reads the total function.
* Python float arithmetic becomes exact rational arithmetic.
* Python `int(r)` truncates toward zero and Python `round` rounds half to
  even; both are modelled exactly (`pyInt`, `pyRound`).
-/

/-- Python `int()` applied to a float: truncation toward zero. -/
def pyInt (q : ℚ) : ℤ := if 0 ≤ q then ⌊q⌋ else ⌈q⌉

/-- Python builtin `round()`: nearest integer, ties to the even integer. -/
def pyRound (q : ℚ) : ℤ :=
  if q - ⌊q⌋ < 1/2 then ⌊q⌋
  else if 1/2 < q - ⌊q⌋ then ⌊q⌋ + 1
  else if ⌊q⌋ % 2 = 0 then ⌊q⌋ else ⌊q⌋ + 1

theorem pyInt_intCast (n : ℤ) : pyInt (n : ℚ) = n := by
  unfold pyInt
  split_ifs <;> simp

theorem pyInt_of_nonneg {q : ℚ} (h : 0 ≤ q) : pyInt q = ⌊q⌋ := by
  unfold pyInt
  rw [if_pos h]

/-! ## PSF Sampler (`real_psf`, makePSF.py lines 118-213)

The source computes `rx = psf_center + x*4`, `ix = int(rx)`, `fx = rx - ix`
(and the same for `y`) before the bounds check; these bindings are pure, so
the embedding names them as standalone definitions used by both regimes. -/

/-- Line 143/144: `rx = psf_center + x*4`. -/
def sampler_rx (x : ℚ) (psf_center : ℤ) : ℚ := (psf_center : ℚ) + x * 4

/-- Line 145/146: `ix = int(rx)` (Python truncation toward zero). -/
def sampler_ix (x : ℚ) (psf_center : ℤ) : ℤ := pyInt (sampler_rx x psf_center)

/-- Line 147/148: `fx = rx - ix`. -/
def sampler_fx (x : ℚ) (psf_center : ℤ) : ℚ :=
  sampler_rx x psf_center - (sampler_ix x psf_center : ℚ)

/-- Lines 153-158: the bilinear regime of `real_psf`. -/
def bilinear_psf (x y : ℚ) (psf : ℤ → ℤ → ℚ) (psf_center : ℤ) : ℚ :=
  let ix := sampler_ix x psf_center
  let iy := sampler_ix y psf_center
  let fx := sampler_fx x psf_center
  let fy := sampler_fx y psf_center
  (1-fx)*(1-fy)*psf iy ix
    + fx*(1-fy)*psf iy (ix+1)
    + (1-fx)*fy*psf (iy+1) ix
    + fx*fy*psf (iy+1) (ix+1)

/-- Lines 160-213: the bicubic regime of `real_psf`, transcribed term by term. -/
def bicubic_psf (x y : ℚ) (psf : ℤ → ℤ → ℚ) (psf_center : ℤ) : ℚ :=
  let ix := sampler_ix x psf_center
  let iy := sampler_ix y psf_center
  let fx := sampler_fx x psf_center
  let fy := sampler_fx y psf_center
  let A1 := psf iy ix
  let B1 := (psf iy (ix+1) - psf iy (ix-1))/2
  let C1 := (psf (iy+1) ix - psf (iy-1) ix)/2
  let D1 := (psf iy (ix+1) + psf iy (ix-1) - 2*A1)/2
  let F1 := (psf (iy+1) ix + psf (iy-1) ix - 2*A1)/2
  let E1 := psf (iy+1) (ix+1) - A1
  let A2 := psf iy (ix+1)
  let B2 := (psf iy (ix+2) - psf iy ix)/2
  let C2 := (psf (iy+1) (ix+1) - psf (iy-1) (ix+1))/2
  let D2 := (psf iy (ix+2) + psf iy ix - 2*A2)/2
  let F2 := (psf (iy+1) (ix+1) + psf (iy-1) (ix+1) - 2*A2)/2
  let E2 := -(psf (iy+1) ix - A2)
  let A3 := psf (iy+1) ix
  let B3 := (psf (iy+1) (ix+1) - psf (iy+1) (ix-1))/2
  let C3 := (psf (iy+2) ix - psf iy ix)/2
  let D3 := (psf (iy+1) (ix+1) + psf (iy+1) (ix-1) - 2*A3)/2
  let F3 := (psf (iy+2) ix + psf iy ix - 2*A3)/2
  let E3 := -(psf iy (ix+1) - A3)
  let A4 := psf (iy+1) (ix+1)
  let B4 := (psf (iy+1) (ix+2) - psf (iy+1) ix)/2
  let C4 := (psf (iy+2) (ix+1) - psf iy (ix+1))/2
  let D4 := (psf (iy+1) (ix+2) + psf (iy+1) ix - 2*A4)/2
  let F4 := (psf (iy+2) (ix+1) + psf iy (ix+1) - 2*A4)/2
  let E4 := psf iy ix - A4
  let V1 := A1 + B1*fx + C1*fy + D1*fx^2 + E1*fx*fy + F1*fy^2
  let V2 := A2 + B2*(fx-1) + C2*fy + D2*(fx-1)^2 + E2*(fx-1)*fy + F2*fy^2
  let V3 := A3 + B3*fx + C3*(fy-1) + D3*fx^2 + E3*fx*(fy-1) + F3*(fy-1)^2
  let V4 := A4 + B4*(fx-1) + C4*(fy-1) + D4*(fx-1)^2 + E4*(fx-1)*(fy-1) + F4*(fy-1)^2
  (1-fx)*(1-fy)*V1 + fx*(1-fy)*V2 + (1-fx)*fy*V3 + fx*fy*V4

/-- Lines 118-213: `real_psf(x, y, psf, psf_center, boxsize)`.
The regime test of line 153 is `sqrt(x^2+y^2) > 4.0`, which over the reals is
equivalent to `x^2 + y^2 > 16`; the embedding uses the squared form to stay
inside ℚ. -/
def real_psf (x y : ℚ) (psf : ℤ → ℤ → ℚ) (psf_center boxsize : ℤ) : ℚ :=
  if |x| > (boxsize : ℚ) ∨ |y| > (boxsize : ℚ) then 0
  else if x^2 + y^2 > 16 then bilinear_psf x y psf psf_center
  else bicubic_psf x y psf psf_center

/-- C2: for every `dx`, `dy`, every ePSF array, every center and every boxsize,
`real_psf` returns exactly 0 whenever `|dx| > boxsize` or `|dy| > boxsize`.
The ePSF `psf` is universally quantified and absent from the conclusion, so the
rejection is independent of every element of the array, which is the shallow
rendering of "decided before any element of the ePSF array is read". -/
theorem C2_bounds_rejection (dx dy : ℚ) (psf : ℤ → ℤ → ℚ) (center boxsize : ℤ)
    (h : |dx| > (boxsize : ℚ) ∨ |dy| > (boxsize : ℚ)) :
    real_psf dx dy psf center boxsize = 0 := by
  unfold real_psf
  rw [if_pos h]

/-- Witness for C2 at `dx = 50`, `dy = 0`, `boxsize = 44`, an arbitrary array. -/
theorem C2_bounds_rejection_witness :
    (|(50 : ℚ)| > ((44 : ℤ) : ℚ) ∨ |(0 : ℚ)| > ((44 : ℤ) : ℚ)) ∧
      real_psf 50 0 (fun _ _ => 3) 177 44 = 0 :=
  ⟨Or.inl (by norm_num), C2_bounds_rejection 50 0 (fun _ _ => 3) 177 44
    (Or.inl (by norm_num))⟩

/-- C5 counterexample: with `center = 0` and `boxsize = 1`, the offset
`dx = -3/5` passes the bounds check (`|dx| ≤ boxsize`), yet Python's `int()`
truncates toward zero, so `ix = -2` while the floor of `rx = -12/5` is `-3`,
and the fractional remainder `fx = -2/5` is negative.  This refutes the claim
that `ix` is the floor and `fx ∈ [0,1)` for every integer center. -/
theorem C5_counterexample :
    |(-3/5 : ℚ)| ≤ ((1 : ℤ) : ℚ) ∧
      sampler_ix (-3/5) 0 ≠ ⌊sampler_rx (-3/5) 0⌋ ∧
      sampler_fx (-3/5) 0 < 0 := by
  have hrx : sampler_rx (-3/5) 0 = -12/5 := by
    unfold sampler_rx
    norm_num
  have hfl : ⌊(-12/5 : ℚ)⌋ = -3 := by
    rw [Int.floor_eq_iff] <;> norm_num
  have hce : ⌈(-12/5 : ℚ)⌉ = -2 := by
    rw [Int.ceil_eq_iff] <;> norm_num
  have hix : sampler_ix (-3/5) 0 = -2 := by
    unfold sampler_ix pyInt
    rw [hrx, if_neg (by norm_num), hce]
  refine ⟨by rw [abs_le]; constructor <;> norm_num, ?_, ?_⟩
  · rw [hix, hrx, hfl]
    decide
  · unfold sampler_fx
    rw [hix, hrx]
    norm_num

/-- C5 amended: in `real_psf`, for every input accepted by the bounds check and
every integer center such that the oversampled coordinates `rx = center + dx*4`
and `ry = center + dy*4` are nonnegative (in particular for the shipped
geometry `center = 177`, `boxsize = 44`), the indices `ix`, `iy` are the integer
floors of `rx`, `ry`, and the remainders `fx`, `fy` lie in `[0, 1)`.  (The
nonnegativity premise is forced by the counterexample above: Python `int()`
truncates toward zero, which agrees with the floor only on nonnegative
coordinates.) -/
theorem C5_amended_floor_decomposition (dx dy : ℚ) (center boxsize : ℤ)
    (hx : |dx| ≤ (boxsize : ℚ)) (hy : |dy| ≤ (boxsize : ℚ))
    (hrx : 0 ≤ sampler_rx dx center) (hry : 0 ≤ sampler_rx dy center) :
    (sampler_ix dx center = ⌊sampler_rx dx center⌋ ∧
      0 ≤ sampler_fx dx center ∧ sampler_fx dx center < 1) ∧
    (sampler_ix dy center = ⌊sampler_rx dy center⌋ ∧
      0 ≤ sampler_fx dy center ∧ sampler_fx dy center < 1) := by
  have key : ∀ t : ℚ, 0 ≤ sampler_rx t center →
      sampler_ix t center = ⌊sampler_rx t center⌋ ∧
        0 ≤ sampler_fx t center ∧ sampler_fx t center < 1 := by
    intro t ht
    have hix : sampler_ix t center = ⌊sampler_rx t center⌋ := pyInt_of_nonneg ht
    refine ⟨hix, ?_, ?_⟩
    · unfold sampler_fx
      rw [hix]
      exact sub_nonneg.2 (Int.floor_le _)
    · unfold sampler_fx
      rw [hix]
      have := Int.lt_floor_add_one (sampler_rx t center)
      push_cast at this ⊢
      linarith
  exact ⟨key dx hrx, key dy hry⟩

/-- Witness for C5 amended at `dx = 1/2`, `dy = 0`, `center = 177`,
`boxsize = 44`. -/
theorem C5_amended_floor_decomposition_witness :
    (|(1/2 : ℚ)| ≤ ((44 : ℤ) : ℚ) ∧ |(0 : ℚ)| ≤ ((44 : ℤ) : ℚ) ∧
      0 ≤ sampler_rx (1/2) 177 ∧ 0 ≤ sampler_rx 0 177) ∧
    -- the amended statement instantiated at the same input

    ((sampler_ix (1/2) 177 = ⌊sampler_rx (1/2) 177⌋ ∧
        0 ≤ sampler_fx (1/2) 177 ∧ sampler_fx (1/2) 177 < 1) ∧
      (sampler_ix 0 177 = ⌊sampler_rx 0 177⌋ ∧
        0 ≤ sampler_fx 0 177 ∧ sampler_fx 0 177 < 1)) :=
  ⟨⟨by rw [abs_le]; constructor <;> norm_num, by norm_num,
      by unfold sampler_rx; norm_num, by unfold sampler_rx; norm_num⟩,
    C5_amended_floor_decomposition (1/2) 0 177 44
      (by rw [abs_le]; constructor <;> norm_num) (by norm_num)
      (by unfold sampler_rx; norm_num) (by unfold sampler_rx; norm_num)⟩

/-- C6: for every ePSF array, every integer center and every `boxsize ≥ 0`,
`real_psf 0 0 psf center boxsize` returns exactly `psf center center`: at
`dx = dy = 0` the bicubic regime is taken, `fx = fy = 0`, and the blended
surface reduces to the center grid value.  (The claim's premise
`2 ≤ center ≤ N-3` only guarantees in-bounds array access, which is automatic
in the total-function model, so the theorem holds for every center.) -/
theorem C6_exact_lookup_at_grid_point (psf : ℤ → ℤ → ℚ) (center boxsize : ℤ)
    (hb : 0 ≤ boxsize) :
    real_psf 0 0 psf center boxsize = psf center center := by
  have hrx : sampler_rx 0 center = (center : ℚ) := by
    unfold sampler_rx
    ring
  have hix : sampler_ix 0 center = center := by
    unfold sampler_ix
    rw [hrx, pyInt_intCast]
  have hfx : sampler_fx 0 center = 0 := by
    unfold sampler_fx
    rw [hrx, hix]
    ring
  have hb' : (0 : ℚ) ≤ (boxsize : ℚ) := by exact_mod_cast hb
  unfold real_psf
  rw [if_neg (by simp only [abs_zero, not_or, not_lt]; exact ⟨hb', hb'⟩),
    if_neg (by norm_num)]
  unfold bicubic_psf
  rw [hix, hfx]
  ring

/-! ## Image Compositor (`place_source`, makePSF.py lines 215-258)

The Python loop visits each pixel `(j, i)` of the clipped box at most once and
only adds into it, so the mutation is embedded pointwise: the returned image
agrees with the input everywhere except on the visited, non-skipped pixels,
where the sampled contribution is added. -/

/-- Lines 215-258: `place_source(xpix, ypix, flux, image, epsf, boxsize,
psf_center)`; `image_size = image.shape[0]`. -/
def place_source (xpix ypix flux : ℚ) (image : ℤ → ℤ → ℚ) (image_size : ℕ)
    (epsf : ℤ → ℤ → ℚ) (boxsize psf_center : ℤ) : ℤ → ℤ → ℚ :=
  if 0 < xpix ∧ xpix < (image_size : ℚ) ∧ 0 < ypix ∧ ypix < (image_size : ℚ) then
    fun j i =>
      if max 0 (pyRound (ypix - (boxsize : ℚ))) ≤ j ∧
          j < min (pyRound (ypix + (boxsize : ℚ))) (image_size : ℤ) ∧
          max 0 (pyRound (xpix - (boxsize : ℚ))) ≤ i ∧
          i < min (pyRound (xpix + (boxsize : ℚ))) (image_size : ℤ) ∧
          ¬(i < 1 ∨ (image_size : ℤ) < i ∨ j < 1 ∨ (image_size : ℤ) < j) then
        image j i + flux * real_psf ((i : ℚ) - xpix) ((j : ℚ) - ypix) epsf psf_center boxsize
      else image j i
  else image

/-- C3: a call to `place_source` with `xpix ≤ 0` or `xpix ≥ image_size`, or
with `ypix ≤ 0` or `ypix ≥ image_size`, leaves every element of the image
buffer unchanged; a source exactly on the boundary counts as outside. -/
theorem C3_boundary_noop (xpix ypix flux : ℚ) (image : ℤ → ℤ → ℚ)
    (image_size : ℕ) (epsf : ℤ → ℤ → ℚ) (boxsize psf_center : ℤ)
    (h : xpix ≤ 0 ∨ (image_size : ℚ) ≤ xpix ∨ ypix ≤ 0 ∨ (image_size : ℚ) ≤ ypix) :
    place_source xpix ypix flux image image_size epsf boxsize psf_center = image := by
  unfold place_source
  rw [if_neg]
  rcases h with h | h | h | h <;> simp only [not_and, not_lt] <;> intros <;>
    linarith

/-- Witness for C3: a source exactly on the lower boundary (`xpix = 0`) of a
4x4 image is a no-op. -/
theorem C3_boundary_noop_witness :
    ((0 : ℚ) ≤ 0 ∨ ((4 : ℕ) : ℚ) ≤ 0 ∨ (2 : ℚ) ≤ 0 ∨ ((4 : ℕ) : ℚ) ≤ 2) ∧
      place_source 0 2 10 (fun j i => ((j + i : ℤ) : ℚ)) 4 (fun _ _ => 1) 44 177 =
        fun j i => ((j + i : ℤ) : ℚ) :=
  ⟨Or.inl le_rfl,
    C3_boundary_noop 0 2 10 (fun j i => ((j + i : ℤ) : ℚ)) 4 (fun _ _ => 1) 44 177
      (Or.inl le_rfl)⟩

/-- C7: linearity of the compositor in flux.  Placing flux `f1` and then flux
`f2` at the same position equals placing flux `f1 + f2` in one call, and
placing flux `0` leaves the image unchanged (both exact over ℚ). -/
theorem C7_flux_linearity (xpix ypix f1 f2 : ℚ) (image : ℤ → ℤ → ℚ)
    (image_size : ℕ) (epsf : ℤ → ℤ → ℚ) (boxsize psf_center : ℤ) :
    place_source xpix ypix f2
        (place_source xpix ypix f1 image image_size epsf boxsize psf_center)
        image_size epsf boxsize psf_center =
      place_source xpix ypix (f1 + f2) image image_size epsf boxsize psf_center ∧
    place_source xpix ypix 0 image image_size epsf boxsize psf_center = image := by
  unfold place_source
  constructor
  · split_ifs with hin
    · funext j i
      try simp only []
      split_ifs with hpix
      · ring
      · rfl
    · rfl
  · split_ifs with hin
    · funext j i
      try simp only []
      split_ifs with hpix
      · ring
      · rfl
    · rfl

/-- C9: index-0 legacy quirk.  For every call to `place_source`, every element
of row 0 and of column 0 of the image buffer is left unchanged: the inner
guard `i < 1 or i > image_size or j < 1 or j > image_size` skips them. -/
theorem C9_row0_col0_untouched (xpix ypix flux : ℚ) (image : ℤ → ℤ → ℚ)
    (image_size : ℕ) (epsf : ℤ → ℤ → ℚ) (boxsize psf_center : ℤ) (k : ℤ) :
    place_source xpix ypix flux image image_size epsf boxsize psf_center 0 k =
        image 0 k ∧
      place_source xpix ypix flux image image_size epsf boxsize psf_center k 0 =
        image k 0 := by
  unfold place_source
  constructor
  · split_ifs with hin
    · try simp only []
      rw [if_neg]
      rintro ⟨-, -, -, -, hguard⟩
      exact hguard (by omega)
    · rfl
  · split_ifs with hin
    · try simp only []
      rw [if_neg]
      rintro ⟨-, -, -, -, hguard⟩
      exact hguard (by omega)
    · rfl

/-! ## Grid Interpolator (`interpolate_epsf`, makePSF.py lines 260-318)

The 3x3 list of ePSF tiles becomes `psf_array : ℕ → ℕ → (ℤ → ℤ → ℚ)` accessed
as `psf_array i j` exactly where the source reads `psf_array[i][j]`; numpy
array arithmetic on tiles is pointwise.  With `from __future__ import
division`, `image_size/2` is true division, and `round` is `pyRound`.  If no
quadrant test matched, the source would raise (unbound local); the final
fallback returns the zero tile and is proved unreachable in C8. -/

/-- Lines 260-318: `interpolate_epsf(xpix, ypix, psf_array, image_size)`. -/
def interpolate_epsf (xpix ypix : ℚ) (psf_array : ℕ → ℕ → (ℤ → ℤ → ℚ))
    (image_size : ℤ) : ℤ → ℤ → ℚ :=
  let half : ℤ := pyRound ((image_size : ℚ) / 2)
  let halfp4 : ℤ := pyRound ((image_size : ℚ) / 2 + 4)
  if xpix ≤ (half : ℚ) ∧ ypix ≤ (half : ℚ) then
    let xf := (xpix + 4) / (halfp4 : ℚ)
    let yf := (ypix + 4) / (halfp4 : ℚ)
    fun a b =>
      xf * yf * psf_array 1 1 a b + (1-xf)*(1-yf) * psf_array 0 0 a b +
        xf * (1-yf) * psf_array 1 0 a b + (1-xf) * yf * psf_array 0 1 a b
  else if (half : ℚ) < xpix ∧ ypix ≤ (half : ℚ) then
    let xf := (xpix + 4 - (halfp4 : ℚ)) / (halfp4 : ℚ)
    let yf := (ypix + 4) / (halfp4 : ℚ)
    fun a b =>
      xf * yf * psf_array 2 1 a b + (1-xf)*(1-yf) * psf_array 1 0 a b +
        xf * (1-yf) * psf_array 2 0 a b + (1-xf) * yf * psf_array 1 1 a b
  else if xpix ≤ (half : ℚ) ∧ (half : ℚ) < ypix then
    let xf := (xpix + 4) / (halfp4 : ℚ)
    let yf := (ypix + 4 - (halfp4 : ℚ)) / (halfp4 : ℚ)
    fun a b =>
      xf * yf * psf_array 1 2 a b + (1-xf)*(1-yf) * psf_array 0 1 a b +
        xf * (1-yf) * psf_array 1 1 a b + (1-xf) * yf * psf_array 0 2 a b
  else if (half : ℚ) < xpix ∧ (half : ℚ) < ypix then
    let xf := (xpix + 4 - (halfp4 : ℚ)) / (halfp4 : ℚ)
    let yf := (ypix + 4 - (halfp4 : ℚ)) / (halfp4 : ℚ)
    fun a b =>
      xf * yf * psf_array 2 2 a b + (1-xf)*(1-yf) * psf_array 1 1 a b +
        xf * (1-yf) * psf_array 2 1 a b + (1-xf) * yf * psf_array 1 2 a b
  else fun _ _ => 0

/-- C8: identity on a uniform grid.  For every real `(xpix, ypix)`, every
`image_size`, and every 3x3 grid whose nine tiles all equal the same array
`T`, `interpolate_epsf` returns an array equal to `T`: in each quadrant branch
the four bilinear weights sum to 1 identically. -/
theorem C8_uniform_grid_identity (xpix ypix : ℚ) (T : ℤ → ℤ → ℚ)
    (image_size : ℤ) :
    interpolate_epsf xpix ypix (fun _ _ => T) image_size = T := by
  unfold interpolate_epsf
  dsimp only
  split_ifs with h1 h2 h3 h4
  · funext a b; ring
  · funext a b; ring
  · funext a b; ring
  · funext a b; ring
  · exfalso
    rcases le_or_lt xpix ((pyRound ((image_size : ℚ) / 2) : ℤ) : ℚ) with hx | hx <;>
      rcases le_or_lt ypix ((pyRound ((image_size : ℚ) / 2) : ℤ) : ℚ) with hy | hy <;>
      tauto

/-- Witness for C6 with the shipped geometry `center = 177`, `boxsize = 44`. -/
theorem C6_exact_lookup_at_grid_point_witness :
    (0 : ℤ) ≤ 44 ∧
      real_psf 0 0 (fun j i => ((j * i : ℤ) : ℚ)) 177 44 =
        (fun j i => ((j * i : ℤ) : ℚ)) 177 177 :=
  ⟨by norm_num,
    C6_exact_lookup_at_grid_point (fun j i => ((j * i : ℤ) : ℚ)) 177 44 (by norm_num)⟩

/-! ## EPSF Builder (`make_epsf`, makePSF.py lines 37-116)

The 5x5 kernel `epsf_array` and the 3x3 IPC matrix `ipc_array` are transcribed
as functions on indices (0 outside the written extent, matching the
zero-padding of the convolution).  `scipy.ndimage.convolve` computes
`out[y,x] = sum_{a,b in 0..4} in[y+2-a, x+2-b] * k[a,b]` with zero fill
outside the array.  The twelve edge-override slice assignments of lines 73-86
are sequential updates; the last assignment to a cell wins, so the embedding
nests them with the latest assignment outermost.  For `size ≥ 6` every slice
index used is nonnegative, so Python's negative-index wraparound does not
arise in the sizes the claims quantify over. -/

/-- Lines 64-68: the fixed 5x5 convolution kernel, indexed `0..4` x `0..4`,
zero outside. -/
def epsf_array (i j : ℤ) : ℚ :=
  if i = 0 ∨ i = 4 then
    (if j = 0 ∨ j = 4 then 1/4 else if j = 1 ∨ j = 2 ∨ j = 3 then 1/2 else 0)
  else if i = 1 ∨ i = 2 ∨ i = 3 then
    (if j = 0 ∨ j = 4 then 1/2 else if j = 1 ∨ j = 2 ∨ j = 3 then 1 else 0)
  else 0

theorem epsf_array_zero (i j : ℤ) (h : i < 0 ∨ 4 < i ∨ j < 0 ∨ 4 < j) :
    epsf_array i j = 0 := by
  unfold epsf_array
  split_ifs <;> first | rfl | omega

/-- Zero-padded array read (`mode='constant', cval=0.0`). -/
def pad (size : ℕ) (f : ℤ → ℤ → ℚ) (y x : ℤ) : ℚ :=
  if 0 ≤ y ∧ y < (size : ℤ) ∧ 0 ≤ x ∧ x < (size : ℤ) then f y x else 0

/-- Line 70: `psf_out = ndimage.convolve(psf_in, epsf_array, mode='constant',
cval=0.0)`. -/
def convolve (size : ℕ) (f : ℤ → ℤ → ℚ) : ℤ → ℤ → ℚ := fun y x =>
  ∑ a ∈ Finset.Ico (0:ℤ) 5, ∑ b ∈ Finset.Ico (0:ℤ) 5,
    epsf_array a b * pad size f (y + 2 - a) (x + 2 - b)

/-- One column override `psf_out[0:size, c] = psf_in[0:size, c] * 16.0`
(lines 73-78) applied on top of `g`. -/
def setCol (size : ℕ) (raw : ℤ → ℤ → ℚ) (c : ℤ) (g : ℤ → ℤ → ℚ) : ℤ → ℤ → ℚ :=
  fun y x => if x = c ∧ 0 ≤ y ∧ y < (size : ℤ) then raw y x * 16 else g y x

/-- One row override `psf_out[r, 3:(size-4)+1] = psf_in[r, 3:(size-4)+1] * 16.0`
(lines 81-86) applied on top of `g`; the slice covers columns
`3 ≤ x < size - 3`. -/
def setRowSeg (size : ℕ) (raw : ℤ → ℤ → ℚ) (r : ℤ) (g : ℤ → ℤ → ℚ) : ℤ → ℤ → ℚ :=
  fun y x => if y = r ∧ 3 ≤ x ∧ x < (size : ℤ) - 3 then raw y x * 16 else g y x

/-- Lines 70-86: the convolved array after the twelve edge overrides, nested so
that the assignment executed last (row `size-3`, line 86) is checked first. -/
def psf_out (size : ℕ) (raw : ℤ → ℤ → ℚ) : ℤ → ℤ → ℚ :=
  setRowSeg size raw ((size : ℤ) - 3) <|
  setRowSeg size raw ((size : ℤ) - 2) <|
  setRowSeg size raw ((size : ℤ) - 1) <|
  setRowSeg size raw 2 <|
  setRowSeg size raw 1 <|
  setRowSeg size raw 0 <|
  setCol size raw ((size : ℤ) - 3) <|
  setCol size raw ((size : ℤ) - 2) <|
  setCol size raw ((size : ℤ) - 1) <|
  setCol size raw 2 <|
  setCol size raw 1 <|
  setCol size raw 0 <| convolve size raw

/-- Lines 89-91: the IPC matrix `[[0.21,1.62,0.20],[1.88,91.59,1.87],
[0.21,1.66,0.22]] / 100.0`, indexed `0..2` x `0..2`, zero outside. -/
def ipc_array (i j : ℤ) : ℚ :=
  (if i = 0 then (if j = 0 then 21/100 else if j = 1 then 162/100
      else if j = 2 then 20/100 else 0)
   else if i = 1 then (if j = 0 then 188/100 else if j = 1 then 9159/100
      else if j = 2 then 187/100 else 0)
   else if i = 2 then (if j = 0 then 21/100 else if j = 1 then 166/100
      else if j = 2 then 22/100 else 0)
   else 0) / 100

/-- One gathered contribution of the IPC scatter loop (lines 100-114): the
destination `(y, x)` receives `w * psf_out[y-dy, x-dx]` exactly when the
source index pair lies in `range(4, size-5) x range(4, size-5)`. -/
def ipcTerm (size : ℕ) (P : ℤ → ℤ → ℚ) (y x dy dx : ℤ) (w : ℚ) : ℚ :=
  if 4 ≤ y - dy ∧ y - dy < (size : ℤ) - 5 ∧ 4 ≤ x - dx ∧ x - dx < (size : ℤ) - 5 then
    w * P (y - dy) (x - dx)
  else 0

/-- Lines 37-116: `make_epsf(psf_in)` with `size = psf_in.shape[0]`.  The
scatter loop writes each (source, destination) pair exactly once, so
`psf_final` is embedded as the pointwise gather of the nine destinations
offset by `(dy, dx) ∈ {-4,0,4}^2` with the matching `ipc_array` weight. -/
def make_epsf (size : ℕ) (psf_in : ℤ → ℤ → ℚ) : ℤ → ℤ → ℚ := fun y x =>
  ipcTerm size (psf_out size psf_in) y x (-4) (-4) (ipc_array 0 0)
  + ipcTerm size (psf_out size psf_in) y x (-4) 0 (ipc_array 0 1)
  + ipcTerm size (psf_out size psf_in) y x (-4) 4 (ipc_array 0 2)
  + ipcTerm size (psf_out size psf_in) y x 0 (-4) (ipc_array 1 0)
  + ipcTerm size (psf_out size psf_in) y x 0 0 (ipc_array 1 1)
  + ipcTerm size (psf_out size psf_in) y x 0 4 (ipc_array 1 2)
  + ipcTerm size (psf_out size psf_in) y x 4 (-4) (ipc_array 2 0)
  + ipcTerm size (psf_out size psf_in) y x 4 0 (ipc_array 2 1)
  + ipcTerm size (psf_out size psf_in) y x 4 4 (ipc_array 2 2)

/-- Total of a `size x size` array (`np.sum`). -/
def totalSum (size : ℕ) (f : ℤ → ℤ → ℚ) : ℚ :=
  ∑ y ∈ Finset.Ico (0:ℤ) (size : ℤ), ∑ x ∈ Finset.Ico (0:ℤ) (size : ℤ), f y x

/-- C10: for every square input array of any size, every element of the last
row and of the last column of `make_epsf`'s output is exactly 0: the IPC loop
only sources indices in `[4, size-6]` and writes to offsets `-4, 0, +4`, so no
destination index reaches `size-1`. -/
theorem C10_last_row_col_zero (size : ℕ) (psf_in : ℤ → ℤ → ℚ) (x y : ℤ) :
    make_epsf size psf_in ((size : ℤ) - 1) x = 0 ∧
      make_epsf size psf_in y ((size : ℤ) - 1) = 0 := by
  have row : ∀ dy dx : ℤ, ∀ w, dy ≤ 4 →
      ipcTerm size (psf_out size psf_in) ((size : ℤ) - 1) x dy dx w = 0 := by
    intro dy dx w hdy
    unfold ipcTerm
    rw [if_neg]
    rintro ⟨-, h2, -, -⟩
    omega
  have col : ∀ dy dx : ℤ, ∀ w, dx ≤ 4 →
      ipcTerm size (psf_out size psf_in) y ((size : ℤ) - 1) dy dx w = 0 := by
    intro dy dx w hdx
    unfold ipcTerm
    rw [if_neg]
    rintro ⟨-, -, -, h4⟩
    omega
  constructor
  · unfold make_epsf
    rw [row _ _ _ (by norm_num), row _ _ _ (by norm_num), row _ _ _ (by norm_num),
      row _ _ _ (by norm_num), row _ _ _ (by norm_num), row _ _ _ (by norm_num),
      row _ _ _ (by norm_num), row _ _ _ (by norm_num), row _ _ _ (by norm_num)]
    ring
  · unfold make_epsf
    rw [col _ _ _ (by norm_num), col _ _ _ (by norm_num), col _ _ _ (by norm_num),
      col _ _ _ (by norm_num), col _ _ _ (by norm_num), col _ _ _ (by norm_num),
      col _ _ _ (by norm_num), col _ _ _ (by norm_num), col _ _ _ (by norm_num)]
    ring

/-- A unit impulse at row 0, column 5: the concrete input refuting C4 at
`size = 9`. -/
def rawC4 : ℤ → ℤ → ℚ := fun y x => if y = 0 ∧ x = 5 then 1 else 0

/-- C4 counterexample: at `size = 9` the claim says the row overrides touch
only columns `3..size-5 = 3..4`, so position `(0, 5)` — not in any claimed
override region (`5 ∉ {0,1,2,6,7,8}` and `5 > 4`) — should keep its convolved
value.  In the code the row-0 slice `3:(size-4)+1` covers columns `3..5`, so
`psf_out[0,5]` is replaced by `raw[0,5]*16 = 16` while the convolved value is
`1`.  The last conjunct records that `(0,5)` is outside the claimed
row-override column range `3..size-5`. -/
theorem C4_counterexample :
    psf_out 9 rawC4 0 5 = 16 ∧ convolve 9 rawC4 0 5 = 1 ∧
      ¬(3 ≤ (5:ℤ) ∧ (5:ℤ) ≤ 9 - 5) := by
  refine ⟨?_, ?_, by omega⟩
  · simp only [psf_out, setRowSeg, setCol]
    norm_num [rawC4]
  · unfold convolve
    rw [show Finset.Ico (0:ℤ) 5 = {0,1,2,3,4} from by decide]
    norm_num [Finset.sum_insert, epsf_array, pad, rawC4]

/-- Folding two consecutive overrides that write the same value into one
guarded by the disjunction of their conditions. -/
theorem ite_or_collapse (P Q : Prop) [Decidable P] [Decidable Q] (A B : ℚ) :
    (if P then A else if Q then A else B) = if P ∨ Q then A else B := by
  split_ifs <;> tauto

/-- C4 amended: for every square input of size ≥ 8 and every in-range position,
the value after the edge overrides is `raw * 16` exactly on columns 0,1,2 and
the last 3 columns (all rows), plus rows 0,1,2 and the last 3 rows restricted
to columns `3..size-4` inclusive (the code's slice `3:(size-4)+1`; the claim
wrote `3..size-5`), and the convolved value everywhere else; the second
conjunct states the column-override and row-override regions are disjoint, so
no position is assigned twice. -/
theorem C4_amended_edge_override_coverage (size : ℕ) (raw : ℤ → ℤ → ℚ)
    (y x : ℤ) (hs : 8 ≤ size) (hy0 : 0 ≤ y) (hy1 : y < (size : ℤ))
    (hx0 : 0 ≤ x) (hx1 : x < (size : ℤ)) :
    psf_out size raw y x =
      (if (x ≤ 2 ∨ (size : ℤ) - 3 ≤ x) ∨
          ((y ≤ 2 ∨ (size : ℤ) - 3 ≤ y) ∧ 3 ≤ x ∧ x ≤ (size : ℤ) - 4)
        then raw y x * 16 else convolve size raw y x) ∧
    ¬((x ≤ 2 ∨ (size : ℤ) - 3 ≤ x) ∧
        ((y ≤ 2 ∨ (size : ℤ) - 3 ≤ y) ∧ 3 ≤ x ∧ x ≤ (size : ℤ) - 4)) := by
  constructor
  · simp only [psf_out, setRowSeg, setCol]
    rw [ite_or_collapse, ite_or_collapse, ite_or_collapse, ite_or_collapse,
      ite_or_collapse, ite_or_collapse, ite_or_collapse, ite_or_collapse,
      ite_or_collapse, ite_or_collapse, ite_or_collapse]
    exact if_congr (by omega) rfl rfl
  · rintro ⟨h1, h2⟩
    omega

/-- Witness for C4 amended at `size = 9`, `(y, x) = (0, 5)`, where the
override fires through the row-0 slice. -/
theorem C4_amended_edge_override_coverage_witness :
    (8 ≤ (9:ℕ) ∧ (0:ℤ) ≤ 0 ∧ (0:ℤ) < (9:ℕ) ∧ (0:ℤ) ≤ 5 ∧ (5:ℤ) < (9:ℕ)) ∧
      (psf_out 9 rawC4 0 5 =
        (if ((5:ℤ) ≤ 2 ∨ ((9:ℕ) : ℤ) - 3 ≤ 5 ∨
            ((0:ℤ) ≤ 2 ∨ ((9:ℕ) : ℤ) - 3 ≤ 0) ∧ 3 ≤ (5:ℤ) ∧ (5:ℤ) ≤ ((9:ℕ) : ℤ) - 4)
          then rawC4 0 5 * 16 else convolve 9 rawC4 0 5) ∧
        ¬(((5:ℤ) ≤ 2 ∨ ((9:ℕ) : ℤ) - 3 ≤ 5) ∧
            ((0:ℤ) ≤ 2 ∨ ((9:ℕ) : ℤ) - 3 ≤ 0) ∧ 3 ≤ (5:ℤ) ∧ (5:ℤ) ≤ ((9:ℕ) : ℤ) - 4)) := by
  constructor
  · refine ⟨by norm_num, by norm_num, by norm_num, by norm_num, by norm_num⟩
  · have h := C4_amended_edge_override_coverage 9 rawC4 0 5 (by norm_num)
      (by norm_num) (by norm_num) (by norm_num) (by norm_num)
    convert h using 3
    rw [or_assoc]

/-! ## Flux conservation of the EPSF Builder (claim C1)

For a unit impulse at `(c, c)` with `6 ≤ c` and `c + 8 ≤ size`, the convolved
array is the kernel translated to `(c, c)`, the edge overrides touch only
zero pixels, every nonzero pixel is an IPC source, and the total output sum
factors as (kernel total 16) x (IPC weight total 0.9946). -/

/-- A unit impulse at `(c, c)`, zero elsewhere. -/
def impulseAt (c : ℤ) : ℤ → ℤ → ℚ := fun y x => if y = c ∧ x = c then 1 else 0

/-- Reindexing a sum over `Ico A B` of a function evaluated at `u + p` to the
support interval `Ico lo hi` of the function, when the shifted interval covers
the support. -/
theorem sum_shift_add (h : ℤ → ℚ) (lo hi A B p : ℤ)
    (hz : ∀ i, i < lo ∨ hi ≤ i → h i = 0) (hA : A + p ≤ lo) (hB : hi ≤ B + p) :
    (∑ u ∈ Finset.Ico A B, h (u + p)) = ∑ i ∈ Finset.Ico lo hi, h i := by
  have e1 : (∑ u ∈ Finset.Ico A B, h (u + p)) =
      ∑ i ∈ Finset.Ico (A + p) (B + p), h i := by
    rw [← Finset.map_add_right_Ico A B p, Finset.sum_map]
    refine Finset.sum_congr rfl ?_
    intro u hu
    congr 1
  rw [e1]
  refine (Finset.sum_subset ?_ ?_).symm
  · intro i hi
    rw [Finset.mem_Ico] at hi ⊢
    omega
  · intro i hi hni
    rw [Finset.mem_Ico] at hi hni
    exact hz i (by omega)

/-- Variant of `sum_shift_add` for a subtracted shift. -/
theorem sum_shift_sub (h : ℤ → ℚ) (lo hi A B s : ℤ)
    (hz : ∀ i, i < lo ∨ hi ≤ i → h i = 0) (hA : A - s ≤ lo) (hB : hi ≤ B - s) :
    (∑ u ∈ Finset.Ico A B, h (u - s)) = ∑ i ∈ Finset.Ico lo hi, h i := by
  have e0 : (∑ u ∈ Finset.Ico A B, h (u - s)) =
      ∑ u ∈ Finset.Ico A B, h (u + (-s)) := by
    refine Finset.sum_congr rfl ?_
    intro u hu
    congr 1
  rw [e0]
  exact sum_shift_add h lo hi A B (-s) hz (by omega) (by omega)

/-- Total of the convolution kernel: 16. -/
theorem epsf_array_total :
    (∑ i ∈ Finset.Ico (0:ℤ) 5, ∑ j ∈ Finset.Ico (0:ℤ) 5, epsf_array i j) = 16 := by
  rw [show Finset.Ico (0:ℤ) 5 = {0,1,2,3,4} from by decide]
  norm_num [Finset.sum_insert, epsf_array]

/-- Convolving a unit impulse at an in-bounds position reproduces the kernel
translated to that position. -/
theorem convolve_impulse (size : ℕ) (c : ℤ) (h0 : 0 ≤ c) (h1 : c < (size : ℤ))
    (y x : ℤ) :
    convolve size (impulseAt c) y x = epsf_array (y + 2 - c) (x + 2 - c) := by
  unfold convolve
  have step : ∀ a b : ℤ,
      epsf_array a b * pad size (impulseAt c) (y + 2 - a) (x + 2 - b) =
        if a = y + 2 - c ∧ b = x + 2 - c then epsf_array a b else 0 := by
    intro a b
    by_cases hab : a = y + 2 - c ∧ b = x + 2 - c
    · obtain ⟨ha, hb⟩ := hab
      have hy' : y + 2 - a = c := by omega
      have hx' : x + 2 - b = c := by omega
      rw [if_pos ⟨ha, hb⟩]
      unfold pad impulseAt
      rw [hy', hx', if_pos ⟨h0, h1, h0, h1⟩, if_pos ⟨rfl, rfl⟩, mul_one]
    · rw [if_neg hab]
      unfold pad impulseAt
      have himp : (if y + 2 - a = c ∧ x + 2 - b = c then (1:ℚ) else 0) = 0 := by
        rw [if_neg]
        intro hcc
        exact hab ⟨by omega, by omega⟩
      rw [himp, ite_self, mul_zero]
  calc (∑ a ∈ Finset.Ico (0:ℤ) 5, ∑ b ∈ Finset.Ico (0:ℤ) 5,
          epsf_array a b * pad size (impulseAt c) (y + 2 - a) (x + 2 - b))
      = ∑ a ∈ Finset.Ico (0:ℤ) 5, ∑ b ∈ Finset.Ico (0:ℤ) 5,
          (if a = y + 2 - c then (if b = x + 2 - c then epsf_array a b else 0)
            else 0) := by
        refine Finset.sum_congr rfl ?_
        intro a _
        refine Finset.sum_congr rfl ?_
        intro b _
        rw [step a b, ite_and]
    _ = ∑ a ∈ Finset.Ico (0:ℤ) 5,
          (if a = y + 2 - c then
            (if x + 2 - c ∈ Finset.Ico (0:ℤ) 5 then epsf_array a (x + 2 - c)
              else 0) else 0) := by
        refine Finset.sum_congr rfl ?_
        intro a _
        by_cases ha : a = y + 2 - c
        · have e : (∑ b ∈ Finset.Ico (0:ℤ) 5,
              if a = y + 2 - c then (if b = x + 2 - c then epsf_array a b else 0)
                else 0) =
              ∑ b ∈ Finset.Ico (0:ℤ) 5,
                (if b = x + 2 - c then epsf_array a b else 0) := by
            refine Finset.sum_congr rfl ?_
            intro b _
            rw [if_pos ha]
          rw [e, if_pos ha, Finset.sum_ite_eq']
        · rw [if_neg ha]
          refine Finset.sum_eq_zero ?_
          intro b _
          rw [if_neg ha]
    _ = if y + 2 - c ∈ Finset.Ico (0:ℤ) 5 then
          (if x + 2 - c ∈ Finset.Ico (0:ℤ) 5 then epsf_array (y + 2 - c) (x + 2 - c)
            else 0) else 0 := by
        rw [Finset.sum_ite_eq']
    _ = epsf_array (y + 2 - c) (x + 2 - c) := by
        simp only [Finset.mem_Ico]
        split_ifs with hy hx
        · rfl
        · rw [epsf_array_zero _ _ (by omega)]
        · rw [epsf_array_zero _ _ (by omega)]

/-- For an impulse at `(c, c)` with `6 ≤ c ≤ size - 8`, the twelve edge
overrides only touch pixels where both the raw impulse and the translated
kernel vanish, so the array after the overrides is still the translated
kernel. -/
theorem psf_out_impulse (size : ℕ) (c : ℤ) (hc6 : 6 ≤ c)
    (hcs : c + 8 ≤ (size : ℤ)) (y x : ℤ) :
    psf_out size (impulseAt c) y x = epsf_array (y + 2 - c) (x + 2 - c) := by
  simp only [psf_out, setRowSeg, setCol]
  rw [ite_or_collapse, ite_or_collapse, ite_or_collapse, ite_or_collapse,
    ite_or_collapse, ite_or_collapse, ite_or_collapse, ite_or_collapse,
    ite_or_collapse, ite_or_collapse, ite_or_collapse]
  split_ifs with hB
  · have himp : impulseAt c y x = 0 := by
      unfold impulseAt
      rw [if_neg]
      omega
    rw [himp, epsf_array_zero _ _ (by omega)]
    norm_num
  · exact convolve_impulse size c (by omega) (by omega) y x

/-- One gathered IPC contribution of an impulse ePSF, as a translated-kernel
term: the range test of the scatter loop is redundant exactly on the support
of the translated kernel. -/
theorem ipcTerm_impulse (size : ℕ) (c y x dy dx : ℤ) (w : ℚ) (hc6 : 6 ≤ c)
    (hcs : c + 8 ≤ (size : ℤ)) (hdy : dy = -4 ∨ dy = 0 ∨ dy = 4)
    (hdx : dx = -4 ∨ dx = 0 ∨ dx = 4) :
    ipcTerm size (psf_out size (impulseAt c)) y x dy dx w =
      w * epsf_array (y - dy + 2 - c) (x - dx + 2 - c) := by
  unfold ipcTerm
  by_cases hin : 4 ≤ y - dy ∧ y - dy < (size : ℤ) - 5 ∧ 4 ≤ x - dx ∧
      x - dx < (size : ℤ) - 5
  · rw [if_pos hin, psf_out_impulse size c hc6 hcs]
  · rw [if_neg hin, epsf_array_zero _ _ (by omega), mul_zero]

/-- The size-independent pointwise value of `make_epsf` on a unit impulse,
as a function of the offset `(u, v) = (y - c, x - c)` from the impulse: each
IPC weight times the kernel translated by the corresponding scatter offset. -/
def ipcSpread (u v : ℤ) : ℚ :=
  ipc_array 0 0 * epsf_array (u + 6) (v + 6)
  + ipc_array 0 1 * epsf_array (u + 6) (v + 2)
  + ipc_array 0 2 * epsf_array (u + 6) (v - 2)
  + ipc_array 1 0 * epsf_array (u + 2) (v + 6)
  + ipc_array 1 1 * epsf_array (u + 2) (v + 2)
  + ipc_array 1 2 * epsf_array (u + 2) (v - 2)
  + ipc_array 2 0 * epsf_array (u - 2) (v + 6)
  + ipc_array 2 1 * epsf_array (u - 2) (v + 2)
  + ipc_array 2 2 * epsf_array (u - 2) (v - 2)

/-- Pointwise evaluation of `make_epsf` on a unit impulse at `(c, c)` with
`6 ≤ c ≤ size - 8`. -/
theorem make_epsf_impulse (size : ℕ) (c : ℤ) (hc6 : 6 ≤ c)
    (hcs : c + 8 ≤ (size : ℤ)) (y x : ℤ) :
    make_epsf size (impulseAt c) y x = ipcSpread (y - c) (x - c) := by
  unfold make_epsf
  rw [ipcTerm_impulse size c y x (-4) (-4) _ hc6 hcs (by norm_num) (by norm_num),
    ipcTerm_impulse size c y x (-4) 0 _ hc6 hcs (by norm_num) (by norm_num),
    ipcTerm_impulse size c y x (-4) 4 _ hc6 hcs (by norm_num) (by norm_num),
    ipcTerm_impulse size c y x 0 (-4) _ hc6 hcs (by norm_num) (by norm_num),
    ipcTerm_impulse size c y x 0 0 _ hc6 hcs (by norm_num) (by norm_num),
    ipcTerm_impulse size c y x 0 4 _ hc6 hcs (by norm_num) (by norm_num),
    ipcTerm_impulse size c y x 4 (-4) _ hc6 hcs (by norm_num) (by norm_num),
    ipcTerm_impulse size c y x 4 0 _ hc6 hcs (by norm_num) (by norm_num),
    ipcTerm_impulse size c y x 4 4 _ hc6 hcs (by norm_num) (by norm_num)]
  have ey1 : y - (-4) + 2 - c = y - c + 6 := by ring
  have ey2 : y - 0 + 2 - c = y - c + 2 := by ring
  have ey3 : y - 4 + 2 - c = y - c - 2 := by ring
  have ex1 : x - (-4) + 2 - c = x - c + 6 := by ring
  have ex2 : x - 0 + 2 - c = x - c + 2 := by ring
  have ex3 : x - 4 + 2 - c = x - c - 2 := by ring
  rw [ey1, ey2, ey3, ex1, ex2, ex3]
  rfl

/-- Vanishing of `ipcSpread` outside the 13x13 support box. -/
theorem ipcSpread_zero (u v : ℤ) (h : u < -6 ∨ 6 < u ∨ v < -6 ∨ 6 < v) :
    ipcSpread u v = 0 := by
  have e1 : epsf_array (u + 6) (v + 6) = 0 := epsf_array_zero _ _ (by omega)
  have e2 : epsf_array (u + 6) (v + 2) = 0 := epsf_array_zero _ _ (by omega)
  have e3 : epsf_array (u + 6) (v - 2) = 0 := epsf_array_zero _ _ (by omega)
  have e4 : epsf_array (u + 2) (v + 6) = 0 := epsf_array_zero _ _ (by omega)
  have e5 : epsf_array (u + 2) (v + 2) = 0 := epsf_array_zero _ _ (by omega)
  have e6 : epsf_array (u + 2) (v - 2) = 0 := epsf_array_zero _ _ (by omega)
  have e7 : epsf_array (u - 2) (v + 6) = 0 := epsf_array_zero _ _ (by omega)
  have e8 : epsf_array (u - 2) (v + 2) = 0 := epsf_array_zero _ _ (by omega)
  have e9 : epsf_array (u - 2) (v - 2) = 0 := epsf_array_zero _ _ (by omega)
  unfold ipcSpread
  rw [e1, e2, e3, e4, e5, e6, e7, e8, e9]
  ring

/-- Total of a unit impulse inside the array: 1. -/
theorem impulse_total (size : ℕ) (c : ℤ) (h0 : 0 ≤ c) (h1 : c < (size : ℤ)) :
    totalSum size (impulseAt c) = 1 := by
  unfold totalSum
  have inner : ∀ y : ℤ,
      (∑ x ∈ Finset.Ico (0:ℤ) (size : ℤ), impulseAt c y x) =
        if y = c then 1 else 0 := by
    intro y
    by_cases hy : y = c
    · rw [if_pos hy]
      calc (∑ x ∈ Finset.Ico (0:ℤ) (size : ℤ), impulseAt c y x)
          = ∑ x ∈ Finset.Ico (0:ℤ) (size : ℤ), (if x = c then (1:ℚ) else 0) := by
            refine Finset.sum_congr rfl ?_
            intro x _
            unfold impulseAt
            by_cases hx : x = c
            · rw [if_pos ⟨hy, hx⟩, if_pos hx]
            · rw [if_neg (fun hc => hx hc.2), if_neg hx]
        _ = if c ∈ Finset.Ico (0:ℤ) (size : ℤ) then 1 else 0 :=
            Finset.sum_ite_eq' _ _ _
        _ = 1 := by
            rw [if_pos]
            rw [Finset.mem_Ico]
            exact ⟨h0, h1⟩
    · rw [if_neg hy]
      refine Finset.sum_eq_zero ?_
      intro x _
      unfold impulseAt
      rw [if_neg (fun hc => hy hc.1)]
  rw [Finset.sum_congr rfl (fun y _ => inner y), Finset.sum_ite_eq', if_pos]
  rw [Finset.mem_Ico]
  exact ⟨h0, h1⟩

/-- A doubly shifted full-support sum of the kernel equals the kernel total. -/
theorem kernel_shift_sum (p q : ℤ) (hp0 : -2 ≤ p) (hp1 : p ≤ 6)
    (hq0 : -2 ≤ q) (hq1 : q ≤ 6) :
    (∑ u ∈ Finset.Ico (-6:ℤ) 7, ∑ v ∈ Finset.Ico (-6:ℤ) 7,
      epsf_array (u + p) (v + q)) = 16 := by
  have inner : ∀ w : ℤ,
      (∑ v ∈ Finset.Ico (-6:ℤ) 7, epsf_array w (v + q)) =
        ∑ j ∈ Finset.Ico (0:ℤ) 5, epsf_array w j :=
    fun w => sum_shift_add (epsf_array w) 0 5 (-6) 7 q
      (fun j hj => epsf_array_zero _ _ (by omega)) (by omega) (by omega)
  calc (∑ u ∈ Finset.Ico (-6:ℤ) 7, ∑ v ∈ Finset.Ico (-6:ℤ) 7,
          epsf_array (u + p) (v + q))
      = ∑ u ∈ Finset.Ico (-6:ℤ) 7, ∑ j ∈ Finset.Ico (0:ℤ) 5,
          epsf_array (u + p) j :=
        Finset.sum_congr rfl (fun u _ => inner (u + p))
    _ = ∑ i ∈ Finset.Ico (0:ℤ) 5, ∑ j ∈ Finset.Ico (0:ℤ) 5, epsf_array i j :=
        sum_shift_add (fun w => ∑ j ∈ Finset.Ico (0:ℤ) 5, epsf_array w j)
          0 5 (-6) 7 p
          (fun w hw => Finset.sum_eq_zero
            (fun j _ => epsf_array_zero _ _ (by omega)))
          (by omega) (by omega)
    _ = 16 := epsf_array_total

/-- C1: flux conservation of the EPSF Builder.  For every square input of size
`≥ 15` holding a single unit impulse at its center pixel `c = size / 2` (zeros
elsewhere), the input total is 1 and the total of `make_epsf`'s output is
exactly `16 * 0.9946`: the convolution kernel total 16 (the edge overrides do
not touch an impulse this far from the border) times the IPC conservation
factor `0.9946`. -/
theorem C1_flux_conservation (size : ℕ) (hs : 15 ≤ size) :
    totalSum size (impulseAt ((size / 2 : ℕ) : ℤ)) = 1 ∧
    totalSum size (make_epsf size (impulseAt ((size / 2 : ℕ) : ℤ))) =
      16 * (9946 / 10000) := by
  set c : ℤ := ((size / 2 : ℕ) : ℤ) with hc
  have hc6 : 6 ≤ c := by omega
  have hcs : c + 8 ≤ (size : ℤ) := by omega
  constructor
  · exact impulse_total size c (by omega) (by omega)
  · calc totalSum size (make_epsf size (impulseAt c))
        = ∑ y ∈ Finset.Ico (0:ℤ) (size : ℤ), ∑ x ∈ Finset.Ico (0:ℤ) (size : ℤ),
            ipcSpread (y - c) (x - c) := by
          unfold totalSum
          refine Finset.sum_congr rfl ?_
          intro y _
          refine Finset.sum_congr rfl ?_
          intro x _
          exact make_epsf_impulse size c hc6 hcs y x
      _ = ∑ y ∈ Finset.Ico (0:ℤ) (size : ℤ), ∑ v ∈ Finset.Ico (-6:ℤ) 7,
            ipcSpread (y - c) v := by
          refine Finset.sum_congr rfl ?_
          intro y _
          exact sum_shift_sub (ipcSpread (y - c)) (-6) 7 0 (size : ℤ) c
            (fun v hv => ipcSpread_zero _ _ (by omega)) (by omega) (by omega)
      _ = ∑ u ∈ Finset.Ico (-6:ℤ) 7, ∑ v ∈ Finset.Ico (-6:ℤ) 7,
            ipcSpread u v :=
          sum_shift_sub
            (fun u => ∑ v ∈ Finset.Ico (-6:ℤ) 7, ipcSpread u v) (-6) 7 0
            (size : ℤ) c
            (fun u hu => Finset.sum_eq_zero
              (fun v _ => ipcSpread_zero _ _ (by omega)))
            (by omega) (by omega)
      _ = 16 * (9946 / 10000) := by
          simp only [ipcSpread, sub_eq_add_neg, Finset.sum_add_distrib,
            ← Finset.mul_sum]
          rw [kernel_shift_sum 6 6 (by norm_num) (by norm_num) (by norm_num)
              (by norm_num),
            kernel_shift_sum 6 2 (by norm_num) (by norm_num) (by norm_num)
              (by norm_num),
            kernel_shift_sum 6 (-2) (by norm_num) (by norm_num) (by norm_num)
              (by norm_num),
            kernel_shift_sum 2 6 (by norm_num) (by norm_num) (by norm_num)
              (by norm_num),
            kernel_shift_sum 2 2 (by norm_num) (by norm_num) (by norm_num)
              (by norm_num),
            kernel_shift_sum 2 (-2) (by norm_num) (by norm_num) (by norm_num)
              (by norm_num),
            kernel_shift_sum (-2) 6 (by norm_num) (by norm_num) (by norm_num)
              (by norm_num),
            kernel_shift_sum (-2) 2 (by norm_num) (by norm_num) (by norm_num)
              (by norm_num),
            kernel_shift_sum (-2) (-2) (by norm_num) (by norm_num) (by norm_num)
              (by norm_num)]
          norm_num [ipc_array]

/-- Witness for C1 at the smallest size the claim covers, `size = 15` with the
impulse at `(7, 7)`. -/
theorem C1_flux_conservation_witness :
    15 ≤ (15 : ℕ) ∧
      (totalSum 15 (impulseAt (((15 : ℕ) / 2 : ℕ) : ℤ)) = 1 ∧
        totalSum 15 (make_epsf 15 (impulseAt (((15 : ℕ) / 2 : ℕ) : ℤ))) =
          16 * (9946 / 10000)) :=
  ⟨by norm_num, C1_flux_conservation 15 (by norm_num)⟩
